import Mathlib

/-!
A shallow embedding of the parameter-server synchronization core
(`src/box/container.h`, `src/filter/filter.h`, `ps.h`), together with
theorems settling the specification claims about it.

The Container's inline member functions (`Accept`, `Notify`, `SetMaxDelay`,
`SetMaxPushDelay`, `SetMaxPullDelay`, `IncrClock`) are translated directly
from `src/box/container.h`.  The collaborators it uses whose sources are not
part of the repository snapshot (`system/aggregator.h`, the `FuturePool`,
`box/consistency.h`, and the out-of-line bodies of `Push`, `Pull`, `Wait`)
are modelled from the specification, each marked `Modelled from the spec:`
in its doc comment.
-/

/-- Node identifier (uid_t in the source). -/
abbrev NodeId := Nat

/-- Message header (util/mail.h is not in the repository snapshot): per the
spec's data model, an envelope header carries a bit-flag `type`
(PUSH | PULL | REPLY), the logical `time` of the epoch it belongs to, and the
`sender` identity.  These are the only header fields `Container::Accept` and
`Container::Notify` read. -/
structure Header where
  type : Nat
  time : Int
  sender : NodeId
deriving DecidableEq

/-- Modelled from the spec: `type` is a bit-flag field in which REPLY can
combine with PUSH or PULL.  The concrete bit positions live in a proto file
not in the snapshot; only their distinctness as bits is used. -/
def Header.PUSH : Nat := 1

/-- Bit flag for a pull request (see `Header.PUSH`). -/
def Header.PULL : Nat := 2

/-- Bit flag for a reply (see `Header.PUSH`). -/
def Header.REPLY : Nat := 4

/-- C++ truthiness of `type & flag`: the bitwise AND is nonzero. -/
def hasFlag (t flag : Nat) : Bool := decide (t &&& flag ≠ 0)

/-- A mail envelope.  The payload (keys/values) is never inspected by the
routing logic the claims are about, so only the header is carried. -/
structure Mail where
  flag : Header
deriving DecidableEq

/-- Association-list lookup by logical time, used to represent the per-time
maps of the Aggregator and the FuturePool. -/
def alookup {β : Type} : List (Int × β) → Int → Option β
  | [], _ => none
  | e :: rest, t => if e.1 = t then some e.2 else alookup rest t

/-- Modelled from the spec: the Aggregator (system/aggregator.h is not in the
repository snapshot) tracks, per logical time, which senders have
acknowledged a request; represented as an association list from time to the
list of acknowledged node ids. -/
abbrev Aggregator := List (Int × List NodeId)

/-- Modelled from the spec: `insert(time, envelope)` records the incoming
reply's sender against the pending set for `time`; if no pending set exists
for `time` the reply is dropped without error. -/
def Aggregator.insert (a : Aggregator) (time : Int) (sender : NodeId) : Aggregator :=
  match a with
  | [] => []
  | e :: rest =>
    if e.1 = time then
      (e.1, if sender ∈ e.2 then e.2 else sender :: e.2) :: rest
    else
      e :: Aggregator.insert rest time sender

/-- Modelled from the spec: `success(time, node_group)` is true iff every
member of `node_group` expected for `time` has acknowledged; when no pending
set exists for `time` nothing has been acknowledged, so it is false. -/
def Aggregator.success (a : Aggregator) (time : Int) (group : List NodeId) : Bool :=
  match alookup a time with
  | none => false
  | some acked => group.all (fun g => decide (g ∈ acked))

/-- Modelled from the spec: `delete(time)` releases the tracking state for
`time`. -/
def Aggregator.delete (a : Aggregator) (time : Int) : Aggregator :=
  a.filter (fun e => decide (e.1 ≠ time))

/-- Modelled from the spec: issuing a request registers a PendingRequest for
its time, with an empty acknowledged set. -/
def Aggregator.register (a : Aggregator) (time : Int) : Aggregator :=
  (time, []) :: a

/-- Record a whole sequence of reply senders, in arrival order. -/
def Aggregator.insertAll (a : Aggregator) (time : Int) (senders : List NodeId) : Aggregator :=
  senders.foldl (fun acc s => Aggregator.insert acc time s) a

/-- Modelled from the spec: the FuturePool maps each registered logical time
to a one-shot completion cell; `none` is a still-pending cell, `some r` a
satisfied one holding result `r`. -/
abbrev FuturePool := List (Int × Option Bool)

/-- Modelled from the spec: `set(time, result)` marks the cell for `time`
satisfied with `result` and wakes any blocked waiter; an unregistered time is
left unchanged here (the spec treats it as a defensive error). -/
def FuturePool.set (p : FuturePool) (time : Int) (r : Bool) : FuturePool :=
  p.map (fun e => if e.1 = time then (e.1, some r) else e)

/-- Modelled from the spec: `create(time)` registers a new pending cell. -/
def FuturePool.register (p : FuturePool) (time : Int) : FuturePool :=
  (time, none) :: p

/-- Outcome of a (non-)blocking read of a completion cell. -/
inductive WaitResult where
  | unknownTimeError
  | wouldBlock
  | ready (r : Bool)
deriving DecidableEq

/-- Modelled from the spec: `wait(time)` fails with `UnknownTimeError` if
`time` was never registered, blocks while the cell is pending (`wouldBlock`),
and once the cell is satisfied returns the result immediately, leaving the
cell available for repeated reads (the returned pool is the input pool). -/
def FuturePool.wait (p : FuturePool) (time : Int) : WaitResult × FuturePool :=
  match alookup p time with
  | none => (WaitResult.unknownTimeError, p)
  | some none => (WaitResult.wouldBlock, p)
  | some (some r) => (WaitResult.ready r, p)

/-- Number of outstanding (still pending) cells: the unacknowledged epochs. -/
def FuturePool.pendingCount (p : FuturePool) : Nat :=
  (p.filter (fun e => e.2.isNone)).length

/-- The state a `Container` (src/box/container.h lines 123-160) carries that
the claims are about: the logical clock `cur_time_`, the push-side
`aggregator_`, the receive queue `mails_received_`, the consistency budgets,
the two future pools and the `pull_aggregator_`.  External collaborators
(postoffice, postmaster, callbacks) are omitted; the node group the source
reads via `postmaster_->GetNodeGroup(name())` is passed as a parameter. -/
structure ContainerState where
  cur_time : Int
  aggregator : Aggregator
  mails_received : List Mail
  max_push_delay : Int
  max_pull_delay : Int
  push_pool : FuturePool
  pull_pool : FuturePool
  pull_aggregator : Aggregator
deriving DecidableEq

/-- src/box/container.h line 150: `static const int kInfDelay = kint32max`. -/
def kInfDelay : Int := 2147483647

/-- src/box/container.h lines 49-52: both budgets are stored clamped by
`std::max(·, 0)`. -/
def Container.SetMaxDelay (s : ContainerState) (push pull : Int) : ContainerState :=
  { s with max_push_delay := max push 0, max_pull_delay := max pull 0 }

/-- src/box/container.h lines 53-55. -/
def Container.SetMaxPushDelay (s : ContainerState) (delay : Int) : ContainerState :=
  { s with max_push_delay := max delay 0 }

/-- src/box/container.h lines 56-58. -/
def Container.SetMaxPullDelay (s : ContainerState) (delay : Int) : ContainerState :=
  { s with max_pull_delay := max delay 0 }

/-- src/box/container.h line 75: `return ++cur_time_`, under the container
mutex; returns the new time together with the updated state. -/
def Container.IncrClock (s : ContainerState) : Int × ContainerState :=
  (s.cur_time + 1, { s with cur_time := s.cur_time + 1 })

/-- src/box/container.h lines 92-106: enqueue the mail; if it is a REPLY,
record its sender in `pull_aggregator_` and, when the success test for its
time passes against the container's node group, satisfy the pull future for
that time and delete the aggregator entry.  The trailing server-only
`ReadAll()` drains the queue for application processing; its body is not in
the snapshot and it touches neither the aggregators nor the pools, so the
worker-side behaviour is modelled. -/
def Container.Accept (group : List NodeId) (s : ContainerState) (mail : Mail) : ContainerState :=
  let s1 := { s with mails_received := s.mails_received ++ [mail] }
  if hasFlag mail.flag.type Header.REPLY then
    let time := mail.flag.time
    let agg := Aggregator.insert s1.pull_aggregator time mail.flag.sender
    if Aggregator.success agg time group then
      { s1 with pull_pool := FuturePool.set s1.pull_pool time true,
                pull_aggregator := Aggregator.delete agg time }
    else
      { s1 with pull_aggregator := agg }
  else s1

/-- src/box/container.h lines 108-114: when the sent header has the PUSH bit,
satisfy the push future for its time; otherwise do nothing. -/
def Container.Notify (s : ContainerState) (flag : Header) : ContainerState :=
  if hasFlag flag.type Header.PUSH then
    { s with push_pool := FuturePool.set s.push_pool flag.time true }
  else s

/-- src/filter/filter.h line 18: the base filter's `Encode` body is empty, so
the message is unchanged. -/
def IFilter.Encode (msg : Mail) : Mail := msg

/-- src/filter/filter.h line 19: the base filter's `Decode` body is empty, so
the message is unchanged. -/
def IFilter.Decode (msg : Mail) : Mail := msg

/-- Modelled from the spec: `Push` assigns a fresh logical time via
`IncrClock`, stamps the outgoing envelope with it, registers the pending
future cell and the push-side aggregator entry under it, and returns that
time to the caller (the bodies of `KVCache::Push` and `Container::Push` are
not in the repository snapshot). -/
def KVCache.Push (self : NodeId) (s : ContainerState) : Int × Header × ContainerState :=
  let p := Container.IncrClock s
  let h : Header := { type := Header.PUSH, time := p.1, sender := self }
  (p.1, h,
   { p.2 with push_pool := FuturePool.register p.2.push_pool p.1,
              aggregator := Aggregator.register p.2.aggregator p.1 })

/-- Modelled from the spec: `Pull` behaves like `KVCache.Push` on the pull
side, registering the pull future cell and the `pull_aggregator_` pending set
under the freshly assigned time. -/
def KVCache.Pull (self : NodeId) (s : ContainerState) : Int × Header × ContainerState :=
  let p := Container.IncrClock s
  let h : Header := { type := Header.PULL, time := p.1, sender := self }
  (p.1, h,
   { p.2 with pull_pool := FuturePool.register p.2.pull_pool p.1,
              pull_aggregator := Aggregator.register p.2.pull_aggregator p.1 })

/-- Modelled from the spec: the consistency window blocks a Push when the
budget is finite and the number of outstanding unacknowledged push epochs has
reached it ("after N outstanding unacknowledged pushes, a further Push call
blocks"); a budget of `kInfDelay` never blocks. -/
def pushBlocks (s : ContainerState) : Bool :=
  decide (s.max_push_delay ≠ kInfDelay) &&
    decide (s.max_push_delay ≤ (FuturePool.pendingCount s.push_pool : Int))

/-- Modelled from the spec: the pull-side analogue of `pushBlocks`. -/
def pullBlocks (s : ContainerState) : Bool :=
  decide (s.max_pull_delay ≠ kInfDelay) &&
    decide (s.max_pull_delay ≤ (FuturePool.pendingCount s.pull_pool : Int))

/-- The events a container participates in: issuing a Push or Pull (which
does not proceed while the consistency window blocks it), the transport
confirming a sent push (`Notify`), and an inbound mail (`Accept`). -/
inductive ContainerEvent where
  | push
  | pull
  | ackPush (time : Int)
  | reply (m : Mail)

/-- One step of the container: a blocked Push/Pull leaves the state unchanged
(the issuing thread is suspended until prior epochs drain). -/
def containerStep (self : NodeId) (group : List NodeId) (s : ContainerState) :
    ContainerEvent → ContainerState
  | ContainerEvent.push => if pushBlocks s then s else (KVCache.Push self s).2.2
  | ContainerEvent.pull => if pullBlocks s then s else (KVCache.Pull self s).2.2
  | ContainerEvent.ackPush t =>
      Container.Notify s { type := Header.PUSH, time := t, sender := self }
  | ContainerEvent.reply m => Container.Accept group s m

/-- Run a sequence of container events from a starting state. -/
def runContainer (self : NodeId) (group : List NodeId) (s : ContainerState) :
    List ContainerEvent → ContainerState
  | [] => s
  | e :: rest => runContainer self group (containerStep self group s e) rest

/-- The sequence of logical times handed out by `n` successive `IncrClock`
calls (one per Push or Pull, per the comment at src/box/container.h line
132). -/
def issuedTimes (s : ContainerState) : Nat → List Int
  | 0 => []
  | n + 1 =>
    let p := Container.IncrClock s
    p.1 :: issuedTimes p.2 n

/-- A concrete container state used by the witness theorems. -/
def sampleState : ContainerState :=
  { cur_time := 0, aggregator := [], mails_received := [],
    max_push_delay := 1, max_pull_delay := 1,
    push_pool := [], pull_pool := [], pull_aggregator := [] }

theorem cur_time_lt_issuedTimes {s : ContainerState} {n : Nat} {t : Int}
    (h : t ∈ issuedTimes s n) : s.cur_time < t := by
  induction n generalizing s with
  | zero => simp [issuedTimes] at h
  | succ k ih =>
    simp only [issuedTimes, Container.IncrClock] at h
    rcases List.mem_cons.mp h with h1 | h1
    · omega
    · have h2 := ih h1
      simp only at h2
      omega

/-- C3: along any sequence of Push/Pull/IncrClock operations, the logical
times issued by `IncrClock` are pairwise strictly increasing — so each call
returns a value strictly greater than every previously issued time, and no
time is ever assigned twice. -/
theorem C3_logical_times_strictly_increasing (s : ContainerState) (n : Nat) :
    List.Pairwise (fun a b => a < b) (issuedTimes s n) ∧ (issuedTimes s n).Nodup := by
  have hp : List.Pairwise (fun a b : Int => a < b) (issuedTimes s n) := by
    induction n generalizing s with
    | zero => simp [issuedTimes]
    | succ k ih =>
      simp only [issuedTimes]
      refine List.pairwise_cons.mpr ⟨?_, ih _⟩
      intro b hb
      have h2 := cur_time_lt_issuedTimes hb
      simp only [Container.IncrClock] at h2 ⊢
      omega
  exact ⟨hp, hp.imp (fun h => ne_of_lt h)⟩

/-- C7: Push and Pull return the freshly assigned logical timestamp, which is
exactly the time stamped into the request's envelope and the key under which
the pending future cell and aggregator entry are registered. -/
theorem C7_push_pull_return_assigned_time (self : NodeId) (s : ContainerState) :
    ((KVCache.Push self s).1 = (KVCache.Push self s).2.1.time
      ∧ (KVCache.Push self s).1 = s.cur_time + 1
      ∧ alookup (KVCache.Push self s).2.2.push_pool (KVCache.Push self s).1 = some none
      ∧ alookup (KVCache.Push self s).2.2.aggregator (KVCache.Push self s).1 = some [])
    ∧ ((KVCache.Pull self s).1 = (KVCache.Pull self s).2.1.time
      ∧ (KVCache.Pull self s).1 = s.cur_time + 1
      ∧ alookup (KVCache.Pull self s).2.2.pull_pool (KVCache.Pull self s).1 = some none
      ∧ alookup (KVCache.Pull self s).2.2.pull_aggregator (KVCache.Pull self s).1 = some []) := by
  simp [KVCache.Push, KVCache.Pull, Container.IncrClock, FuturePool.register,
    Aggregator.register, alookup]

/-- C8: the base encoding filter's Encode and Decode bodies are empty, so the
two transforms are mutually inverse (both compositions are the identity) and
trivially pure and order-preserving. -/
theorem C8_encode_decode_identity (msg : Mail) :
    IFilter.Encode (IFilter.Decode msg) = msg ∧ IFilter.Decode (IFilter.Encode msg) = msg :=
  ⟨rfl, rfl⟩

/-- C9: every delay setter clamps a negative argument to 0, so after any call
to SetMaxDelay, SetMaxPushDelay or SetMaxPullDelay on a state whose budgets
are already non-negative, both stored budgets remain non-negative. -/
theorem C9_delay_budgets_nonneg (s : ContainerState) (a b d : Int)
    (hs : 0 ≤ s.max_push_delay ∧ 0 ≤ s.max_pull_delay) :
    (0 ≤ (Container.SetMaxDelay s a b).max_push_delay
      ∧ 0 ≤ (Container.SetMaxDelay s a b).max_pull_delay)
    ∧ (0 ≤ (Container.SetMaxPushDelay s d).max_push_delay
      ∧ 0 ≤ (Container.SetMaxPushDelay s d).max_pull_delay)
    ∧ (0 ≤ (Container.SetMaxPullDelay s d).max_push_delay
      ∧ 0 ≤ (Container.SetMaxPullDelay s d).max_pull_delay) := by
  simp only [Container.SetMaxDelay, Container.SetMaxPushDelay, Container.SetMaxPullDelay]
  refine ⟨⟨le_max_right a 0, le_max_right b 0⟩, ⟨le_max_right d 0, hs.2⟩, ⟨hs.1, le_max_right d 0⟩⟩

/-- Witness for C9 at a concrete state and arguments. -/
theorem C9_delay_budgets_nonneg_witness :
    0 ≤ (Container.SetMaxDelay sampleState (-3) (-7)).max_push_delay
      ∧ 0 ≤ (Container.SetMaxDelay sampleState (-3) (-7)).max_pull_delay :=
  (C9_delay_budgets_nonneg sampleState (-3) (-7) (-5) (by decide)).1

/-- C10: Notify touches only the push future pool — the pull pool, both
aggregators, the receive queue, the clock and the budgets are unchanged; the
push pool is satisfied at the header's time exactly when the PUSH bit is set,
and without the PUSH bit the whole state is unchanged. -/
theorem C10_notify_touches_only_push_pool (s : ContainerState) (flag : Header) :
    ((Container.Notify s flag).pull_pool = s.pull_pool
      ∧ (Container.Notify s flag).aggregator = s.aggregator
      ∧ (Container.Notify s flag).pull_aggregator = s.pull_aggregator
      ∧ (Container.Notify s flag).mails_received = s.mails_received
      ∧ (Container.Notify s flag).cur_time = s.cur_time
      ∧ (Container.Notify s flag).max_push_delay = s.max_push_delay
      ∧ (Container.Notify s flag).max_pull_delay = s.max_pull_delay)
    ∧ (Container.Notify s flag).push_pool =
        (if hasFlag flag.type Header.PUSH then FuturePool.set s.push_pool flag.time true
          else s.push_pool)
    ∧ (hasFlag flag.type Header.PUSH = false → Container.Notify s flag = s) := by
  unfold Container.Notify
  cases h : hasFlag flag.type Header.PUSH <;> simp [h]

/-- Witness for C10 at a concrete header without the PUSH bit. -/
theorem C10_notify_touches_only_push_pool_witness :
    Container.Notify sampleState { type := Header.PULL, time := 1, sender := 0 } = sampleState :=
  (C10_notify_touches_only_push_pool sampleState
    { type := Header.PULL, time := 1, sender := 0 }).2.2 (by decide)

theorem Aggregator.insert_of_not_registered {a : Aggregator} {t : Int} {sdr : NodeId}
    (h : alookup a t = none) : Aggregator.insert a t sdr = a := by
  induction a with
  | nil => rfl
  | cons e rest ih =>
    simp only [alookup] at h
    by_cases he : e.1 = t
    · simp [he] at h
    · simp only [Aggregator.insert, if_neg he]
      rw [ih (by simpa [he] using h)]

theorem Aggregator.success_of_not_registered {a : Aggregator} {t : Int} {group : List NodeId}
    (h : alookup a t = none) : Aggregator.success a t group = false := by
  simp [Aggregator.success, h]

/-- C4: waiting for a time that was never issued fails with UnknownTimeError
and never silently succeeds, while waiting for an already-completed time
returns the result immediately, does not consume the cell, and can be
repeated with the same result. -/
theorem C4_wait_error_and_completed (p : FuturePool) (time : Int) (r : Bool) :
    (alookup p time = none →
      (FuturePool.wait p time).1 = WaitResult.unknownTimeError
        ∧ ∀ b : Bool, (FuturePool.wait p time).1 ≠ WaitResult.ready b)
    ∧ (alookup p time = some (some r) →
      (FuturePool.wait p time).1 = WaitResult.ready r
        ∧ (FuturePool.wait p time).2 = p
        ∧ (FuturePool.wait (FuturePool.wait p time).2 time).1 = WaitResult.ready r) := by
  constructor
  · intro h
    simp [FuturePool.wait, h]
  · intro h
    simp [FuturePool.wait, h]

/-- Witness for C4 at a concrete pool: time 5 was never issued, time 3 is
already completed with result true. -/
theorem C4_wait_error_and_completed_witness :
    (FuturePool.wait [((3 : Int), some true)] 5).1 = WaitResult.unknownTimeError
      ∧ (FuturePool.wait [((3 : Int), some true)] 3).1 = WaitResult.ready true :=
  ⟨((C4_wait_error_and_completed [((3 : Int), some true)] 5 true).1 (by decide)).1,
   ((C4_wait_error_and_completed [((3 : Int), some true)] 3 true).2 (by decide)).1⟩

/-- C5: a reply accepted for a time with no pending aggregator entry is
dropped without error — beyond enqueueing the mail itself, the accept leaves
both aggregators, both future pools and the clock exactly as they were (so in
particular the state associated with every other time is unchanged). -/
theorem C5_late_reply_dropped (group : List NodeId) (s : ContainerState) (m : Mail)
    (h : alookup s.pull_aggregator m.flag.time = none) :
    (Container.Accept group s m).pull_aggregator = s.pull_aggregator
    ∧ (Container.Accept group s m).pull_pool = s.pull_pool
    ∧ (Container.Accept group s m).push_pool = s.push_pool
    ∧ (Container.Accept group s m).aggregator = s.aggregator
    ∧ (Container.Accept group s m).cur_time = s.cur_time
    ∧ (Container.Accept group s m).mails_received = s.mails_received ++ [m] := by
  unfold Container.Accept
  cases hr : hasFlag m.flag.type Header.REPLY
  · simp
  · simp [Aggregator.insert_of_not_registered h, Aggregator.success_of_not_registered h]

/-- Witness for C5: a pending entry exists for time 2 only, and a late reply
for time 5 leaves the aggregator untouched. -/
theorem C5_late_reply_dropped_witness :
    (Container.Accept [7] { sampleState with pull_aggregator := [((2 : Int), [])] }
        { flag := { type := Header.REPLY, time := 5, sender := 7 } }).pull_aggregator
      = [((2 : Int), [])]
    ∧ (Container.Accept [7] { sampleState with pull_aggregator := [((2 : Int), [])] }
        { flag := { type := Header.REPLY, time := 5, sender := 7 } }).pull_pool
      = sampleState.pull_pool :=
  ⟨(C5_late_reply_dropped [7] { sampleState with pull_aggregator := [((2 : Int), [])] }
      { flag := { type := Header.REPLY, time := 5, sender := 7 } } (by decide)).1,
   (C5_late_reply_dropped [7] { sampleState with pull_aggregator := [((2 : Int), [])] }
      { flag := { type := Header.REPLY, time := 5, sender := 7 } } (by decide)).2.1⟩

theorem alookup_delete_self (a : Aggregator) (t : Int) :
    alookup (Aggregator.delete a t) t = none := by
  induction a with
  | nil => rfl
  | cons e rest ih =>
    simp only [Aggregator.delete, List.filter] at ih ⊢
    by_cases he : e.1 = t
    · simpa [he] using ih
    · simpa [he, alookup] using ih

theorem alookup_insert_of_none {a : Aggregator} {T t : Int} {sdr : NodeId}
    (h : alookup a T = none) : alookup (Aggregator.insert a t sdr) T = none := by
  induction a with
  | nil => exact h
  | cons e rest ih =>
    simp only [alookup] at h
    by_cases heT : e.1 = T
    · simp [heT] at h
    · have h2 := ih (by simpa [heT] using h)
      simp only [Aggregator.insert]
      by_cases het : e.1 = t
      · rw [if_pos het]
        simpa [alookup, heT] using h
      · simp [het, alookup, heT, h2]

theorem alookup_delete_of_none {a : Aggregator} {T t : Int}
    (h : alookup a T = none) : alookup (Aggregator.delete a t) T = none := by
  induction a with
  | nil => rfl
  | cons e rest ih =>
    simp only [alookup] at h
    by_cases heT : e.1 = T
    · simp [heT] at h
    · have h2 := ih (by simpa [heT] using h)
      simp only [Aggregator.delete, List.filter] at h2 ⊢
      by_cases het : e.1 = t
      · simpa [het] using h2
      · simpa [het, alookup, heT] using h2

/-- Whether one Accept call fires `pull_aggregator_.Delete`
(src/box/container.h lines 95-101): exactly when the mail is a REPLY and the
success test passes right after the sender is recorded. -/
def Container.acceptDeletes (group : List NodeId) (s : ContainerState) (m : Mail) : Bool :=
  hasFlag m.flag.type Header.REPLY &&
    Aggregator.success (Aggregator.insert s.pull_aggregator m.flag.time m.flag.sender)
      m.flag.time group

/-- Number of Accept calls in a mail sequence that fire Delete for time `T`. -/
def deleteCount (group : List NodeId) (s : ContainerState) (T : Int) : List Mail → Nat
  | [] => 0
  | m :: rest =>
    (if m.flag.time = T ∧ Container.acceptDeletes group s m = true then 1 else 0)
      + deleteCount group (Container.Accept group s m) T rest

theorem accept_fire_clears {group : List NodeId} {s : ContainerState} {m : Mail}
    (hd : Container.acceptDeletes group s m = true) :
    alookup (Container.Accept group s m).pull_aggregator m.flag.time = none := by
  simp only [Container.acceptDeletes, Bool.and_eq_true] at hd
  unfold Container.Accept
  simp only [hd.1, hd.2, if_true]
  exact alookup_delete_self _ _

theorem accept_no_fire_of_none {group : List NodeId} {s : ContainerState} {m : Mail}
    (h : alookup s.pull_aggregator m.flag.time = none) :
    Container.acceptDeletes group s m = false := by
  simp [Container.acceptDeletes,
    Aggregator.success_of_not_registered (alookup_insert_of_none h)]

theorem accept_preserves_none {group : List NodeId} {s : ContainerState} {m : Mail} {T : Int}
    (h : alookup s.pull_aggregator T = none) :
    alookup (Container.Accept group s m).pull_aggregator T = none := by
  unfold Container.Accept
  cases hr : hasFlag m.flag.type Header.REPLY
  · simpa using h
  · simp only [if_true]
    by_cases hs : Aggregator.success
        (Aggregator.insert s.pull_aggregator m.flag.time m.flag.sender) m.flag.time group = true
    · simp only [hs, if_true]
      exact alookup_delete_of_none (alookup_insert_of_none h)
    · simp only [hs]
      simpa using alookup_insert_of_none h

theorem deleteCount_eq_zero {group : List NodeId} {T : Int} {s : ContainerState}
    (h : alookup s.pull_aggregator T = none) (mails : List Mail) :
    deleteCount group s T mails = 0 := by
  induction mails generalizing s with
  | nil => rfl
  | cons m rest ih =>
    simp only [deleteCount]
    rw [ih (accept_preserves_none h)]
    by_cases hm : m.flag.time = T
    · have hf : Container.acceptDeletes group s m = false :=
        accept_no_fire_of_none (by rw [hm]; exact h)
      simp [hf]
    · simp [hm]

/-- C6: along any sequence of accepted mails, the aggregator Delete for a
time `T` fires at most once — once the tracking state for `T` is released it
stays released, so later replies for `T` cannot free it again — and a given
Accept call fires Delete precisely when it is the one whose success test
first passes (REPLY mail whose insert makes `success` true), after which the
entry for that time is gone. -/
theorem C6_delete_fires_exactly_once (group : List NodeId) (s : ContainerState) (T : Int)
    (mails : List Mail) (m : Mail) :
    deleteCount group s T mails ≤ 1
    ∧ (Container.acceptDeletes group s m = true →
        alookup (Container.Accept group s m).pull_aggregator m.flag.time = none)
    ∧ (Container.acceptDeletes group s m = true ↔
        hasFlag m.flag.type Header.REPLY = true ∧
          Aggregator.success (Aggregator.insert s.pull_aggregator m.flag.time m.flag.sender)
            m.flag.time group = true) := by
  refine ⟨?_, accept_fire_clears, by simp [Container.acceptDeletes]⟩
  induction mails generalizing s with
  | nil => exact Nat.zero_le 1
  | cons m2 rest ih =>
    simp only [deleteCount]
    by_cases hfire : m2.flag.time = T ∧ Container.acceptDeletes group s m2 = true
    · have hnone : alookup (Container.Accept group s m2).pull_aggregator T = none := by
        rw [← hfire.1]
        exact accept_fire_clears hfire.2
      rw [deleteCount_eq_zero hnone]
      simp [hfire]
    · rw [if_neg hfire]
      simpa using ih _

/-- Witness for C6: one pending entry for time 5 expecting node 7; the reply
from 7 fires the delete and releases the entry. -/
theorem C6_delete_fires_exactly_once_witness :
    deleteCount [7] { sampleState with pull_aggregator := [((5 : Int), [])] } 5
        [{ flag := { type := Header.REPLY, time := 5, sender := 7 } },
         { flag := { type := Header.REPLY, time := 5, sender := 7 } }] ≤ 1
    ∧ alookup (Container.Accept [7] { sampleState with pull_aggregator := [((5 : Int), [])] }
        { flag := { type := Header.REPLY, time := 5, sender := 7 } }).pull_aggregator 5 = none :=
  ⟨(C6_delete_fires_exactly_once [7]
      { sampleState with pull_aggregator := [((5 : Int), [])] } 5
      [{ flag := { type := Header.REPLY, time := 5, sender := 7 } },
       { flag := { type := Header.REPLY, time := 5, sender := 7 } }]
      { flag := { type := Header.REPLY, time := 5, sender := 7 } }).1,
   (C6_delete_fires_exactly_once [7]
      { sampleState with pull_aggregator := [((5 : Int), [])] } 5
      [{ flag := { type := Header.REPLY, time := 5, sender := 7 } },
       { flag := { type := Header.REPLY, time := 5, sender := 7 } }]
      { flag := { type := Header.REPLY, time := 5, sender := 7 } }).2.1 (by decide)⟩

theorem insertAll_single (time : Int) (acked senders : List NodeId) :
    Aggregator.insertAll [(time, acked)] time senders
      = [(time, senders.foldl (fun acc s => if s ∈ acc then acc else s :: acc) acked)] := by
  induction senders generalizing acked with
  | nil => rfl
  | cons s rest ih =>
    simp only [Aggregator.insertAll, List.foldl] at ih ⊢
    rw [show Aggregator.insert [(time, acked)] time s
        = [(time, if s ∈ acked then acked else s :: acked)] from by
      simp [Aggregator.insert]]
    exact ih _

theorem mem_foldl_ackInsert (x : NodeId) (senders acked : List NodeId) :
    x ∈ senders.foldl (fun acc s => if s ∈ acc then acc else s :: acc) acked
      ↔ x ∈ acked ∨ x ∈ senders := by
  induction senders generalizing acked with
  | nil => simp
  | cons s rest ih =>
    simp only [List.foldl, List.mem_cons]
    rw [ih]
    by_cases hs : s ∈ acked
    · simp only [if_pos hs]
      have hxs : x = s → x ∈ acked := fun hh => by rw [hh]; exact hs
      tauto
    · simp only [if_neg hs, List.mem_cons]
      tauto

/-- C1: starting from a freshly registered pending set for `time`, after
recording any sequence of reply senders the success predicate is true iff
every member of the node group is among the recorded senders — so it is false
while any member's acknowledgment is missing and becomes true exactly when
the last required one is recorded — and its value is invariant under
permuting the arrival order of the acknowledgments. -/
theorem C1_success_iff_all_acked (time : Int) (group senders senders2 : List NodeId)
    (hperm : senders.Perm senders2) :
    (Aggregator.success (Aggregator.insertAll (Aggregator.register [] time) time senders)
        time group = true ↔ ∀ g ∈ group, g ∈ senders)
    ∧ Aggregator.success (Aggregator.insertAll (Aggregator.register [] time) time senders)
        time group
      = Aggregator.success (Aggregator.insertAll (Aggregator.register [] time) time senders2)
        time group := by
  have key : ∀ l : List NodeId,
      Aggregator.success (Aggregator.insertAll (Aggregator.register [] time) time l)
        time group = group.all (fun g => decide (g ∈ l)) := by
    intro l
    rw [show Aggregator.register [] time = [(time, ([] : List NodeId))] from rfl,
      insertAll_single]
    rw [show Aggregator.success
        [(time, l.foldl (fun acc s => if s ∈ acc then acc else s :: acc) [])] time group
        = group.all (fun g =>
            decide (g ∈ l.foldl (fun acc s => if s ∈ acc then acc else s :: acc) [])) from by
      simp [Aggregator.success, alookup]]
    congr 1
    funext g
    rw [decide_eq_decide, mem_foldl_ackInsert]
    simp
  constructor
  · rw [key senders]
    simp [List.all_eq_true]
  · rw [key senders, key senders2]
    congr 1
    funext g
    rw [decide_eq_decide]
    exact hperm.mem_iff

/-- Witness for C1: group of two servers, acknowledgments arriving in the two
possible orders. -/
theorem C1_success_iff_all_acked_witness :
    Aggregator.success (Aggregator.insertAll (Aggregator.register [] 3) 3 [1, 2]) 3 [1, 2]
      = Aggregator.success (Aggregator.insertAll (Aggregator.register [] 3) 3 [2, 1]) 3 [1, 2] :=
  (C1_success_iff_all_acked 3 [1, 2] [1, 2] [2, 1] (List.Perm.swap 2 1 [])).2

theorem pendingCount_register (p : FuturePool) (t : Int) :
    FuturePool.pendingCount (FuturePool.register p t) = FuturePool.pendingCount p + 1 := by
  simp [FuturePool.register, FuturePool.pendingCount, List.filter_cons]

theorem pendingCount_set_le (p : FuturePool) (t : Int) (r : Bool) :
    FuturePool.pendingCount (FuturePool.set p t r) ≤ FuturePool.pendingCount p := by
  simp only [FuturePool.pendingCount, FuturePool.set, ← List.countP_eq_length_filter,
    List.countP_map]
  refine List.countP_mono_left ?_
  intro e _ he
  simp only [Function.comp] at he
  by_cases h : e.1 = t
  · simp [h] at he
  · simpa [h] using he

theorem notify_push_pending_le (s : ContainerState) (flag : Header) :
    FuturePool.pendingCount (Container.Notify s flag).push_pool
      ≤ FuturePool.pendingCount s.push_pool := by
  unfold Container.Notify
  cases hp : hasFlag flag.type Header.PUSH
  · simp
  · simp only [if_true]
    exact pendingCount_set_le _ _ _

theorem notify_rest (s : ContainerState) (flag : Header) :
    (Container.Notify s flag).pull_pool = s.pull_pool
    ∧ (Container.Notify s flag).max_push_delay = s.max_push_delay
    ∧ (Container.Notify s flag).max_pull_delay = s.max_pull_delay := by
  unfold Container.Notify
  cases hp : hasFlag flag.type Header.PUSH <;> simp

theorem accept_frame (group : List NodeId) (s : ContainerState) (m : Mail) :
    (Container.Accept group s m).max_push_delay = s.max_push_delay
    ∧ (Container.Accept group s m).max_pull_delay = s.max_pull_delay
    ∧ (Container.Accept group s m).push_pool = s.push_pool := by
  unfold Container.Accept
  cases hr : hasFlag m.flag.type Header.REPLY
  · simp
  · by_cases hs : Aggregator.success
        (Aggregator.insert s.pull_aggregator m.flag.time m.flag.sender) m.flag.time group = true
    · simp [hs]
    · simp [hs]

theorem accept_pull_pending_le (group : List NodeId) (s : ContainerState) (m : Mail) :
    FuturePool.pendingCount (Container.Accept group s m).pull_pool
      ≤ FuturePool.pendingCount s.pull_pool := by
  unfold Container.Accept
  cases hr : hasFlag m.flag.type Header.REPLY
  · simp
  · by_cases hs : Aggregator.success
        (Aggregator.insert s.pull_aggregator m.flag.time m.flag.sender) m.flag.time group = true
    · simp only [hs, if_true]
      exact pendingCount_set_le _ _ _
    · simp [hs]

theorem containerStep_preserves_window (self : NodeId) (group : List NodeId)
    (s : ContainerState) (e : ContainerEvent)
    (hpush : s.max_push_delay ≠ kInfDelay →
      (FuturePool.pendingCount s.push_pool : Int) ≤ s.max_push_delay)
    (hpull : s.max_pull_delay ≠ kInfDelay →
      (FuturePool.pendingCount s.pull_pool : Int) ≤ s.max_pull_delay) :
    ((containerStep self group s e).max_push_delay ≠ kInfDelay →
      (FuturePool.pendingCount (containerStep self group s e).push_pool : Int)
        ≤ (containerStep self group s e).max_push_delay)
    ∧ ((containerStep self group s e).max_pull_delay ≠ kInfDelay →
      (FuturePool.pendingCount (containerStep self group s e).pull_pool : Int)
        ≤ (containerStep self group s e).max_pull_delay) := by
  cases e with
  | push =>
    by_cases hb : pushBlocks s = true
    · simp only [containerStep, hb, if_true]
      exact ⟨hpush, hpull⟩
    · simp only [containerStep]
      rw [if_neg hb]
      constructor
      · simp only [KVCache.Push, Container.IncrClock]
        intro hfin
        rw [pendingCount_register]
        have hnb : ¬ s.max_push_delay ≤ (FuturePool.pendingCount s.push_pool : Int) := by
          intro hle
          exact hb (by simp [pushBlocks, hfin, hle])
        omega
      · simp only [KVCache.Push, Container.IncrClock]
        exact hpull
  | pull =>
    by_cases hb : pullBlocks s = true
    · simp only [containerStep, hb, if_true]
      exact ⟨hpush, hpull⟩
    · simp only [containerStep]
      rw [if_neg hb]
      constructor
      · simp only [KVCache.Pull, Container.IncrClock]
        exact hpush
      · simp only [KVCache.Pull, Container.IncrClock]
        intro hfin
        rw [pendingCount_register]
        have hnb : ¬ s.max_pull_delay ≤ (FuturePool.pendingCount s.pull_pool : Int) := by
          intro hle
          exact hb (by simp [pullBlocks, hfin, hle])
        omega
  | ackPush t =>
    obtain ⟨hq, hbp, hbq⟩ := notify_rest s { type := Header.PUSH, time := t, sender := self }
    have hle := notify_push_pending_le s { type := Header.PUSH, time := t, sender := self }
    simp only [containerStep, hq, hbp, hbq]
    constructor
    · intro hfin
      have h1 := hpush hfin
      have h2 : (FuturePool.pendingCount
          (Container.Notify s { type := Header.PUSH, time := t, sender := self }).push_pool : Int)
          ≤ (FuturePool.pendingCount s.push_pool : Int) := by exact_mod_cast hle
      omega
    · exact hpull
  | reply m =>
    obtain ⟨hbp, hbq, hpp⟩ := accept_frame group s m
    have hle := accept_pull_pending_le group s m
    simp only [containerStep, hbp, hbq, hpp]
    constructor
    · exact hpush
    · intro hfin
      have h1 := hpull hfin
      have h2 : (FuturePool.pendingCount (Container.Accept group s m).pull_pool : Int)
          ≤ (FuturePool.pendingCount s.pull_pool : Int) := by exact_mod_cast hle
      omega

theorem runContainer_preserves_window (self : NodeId) (group : List NodeId)
    (events : List ContainerEvent) (s : ContainerState)
    (hpush : s.max_push_delay ≠ kInfDelay →
      (FuturePool.pendingCount s.push_pool : Int) ≤ s.max_push_delay)
    (hpull : s.max_pull_delay ≠ kInfDelay →
      (FuturePool.pendingCount s.pull_pool : Int) ≤ s.max_pull_delay) :
    ((runContainer self group s events).max_push_delay ≠ kInfDelay →
      (FuturePool.pendingCount (runContainer self group s events).push_pool : Int)
        ≤ (runContainer self group s events).max_push_delay)
    ∧ ((runContainer self group s events).max_pull_delay ≠ kInfDelay →
      (FuturePool.pendingCount (runContainer self group s events).pull_pool : Int)
        ≤ (runContainer self group s events).max_pull_delay) := by
  induction events generalizing s with
  | nil => exact ⟨hpush, hpull⟩
  | cons e rest ih =>
    simp only [runContainer]
    obtain ⟨h1, h2⟩ := containerStep_preserves_window self group s e hpush hpull
    exact ih _ h1 h2

/-- C2 (amended): along any event sequence, a container with a finite push
(pull) delay budget never has more outstanding unacknowledged push (pull)
epochs than the budget; a Push issued while the number of outstanding epochs
has reached the budget blocks — the call does not proceed and the state is
unchanged until a prior push completes — a Push issued with fewer outstanding
epochs than the budget never blocks, and a budget of kInfDelay never blocks;
the same holds for Pull with the pull budget. -/
theorem C2_bounded_staleness_backpressure (self : NodeId) (group : List NodeId)
    (s0 : ContainerState) (events : List ContainerEvent)
    (hpush0 : s0.max_push_delay ≠ kInfDelay →
      (FuturePool.pendingCount s0.push_pool : Int) ≤ s0.max_push_delay)
    (hpull0 : s0.max_pull_delay ≠ kInfDelay →
      (FuturePool.pendingCount s0.pull_pool : Int) ≤ s0.max_pull_delay) :
    ((runContainer self group s0 events).max_push_delay ≠ kInfDelay →
      (FuturePool.pendingCount (runContainer self group s0 events).push_pool : Int)
        ≤ (runContainer self group s0 events).max_push_delay)
    ∧ ((runContainer self group s0 events).max_pull_delay ≠ kInfDelay →
      (FuturePool.pendingCount (runContainer self group s0 events).pull_pool : Int)
        ≤ (runContainer self group s0 events).max_pull_delay)
    ∧ (∀ s : ContainerState, s.max_push_delay ≠ kInfDelay →
        s.max_push_delay ≤ (FuturePool.pendingCount s.push_pool : Int) →
        pushBlocks s = true ∧ containerStep self group s ContainerEvent.push = s)
    ∧ (∀ s : ContainerState,
        (FuturePool.pendingCount s.push_pool : Int) < s.max_push_delay →
        pushBlocks s = false)
    ∧ (∀ s : ContainerState, s.max_push_delay = kInfDelay → pushBlocks s = false)
    ∧ (∀ s : ContainerState, s.max_pull_delay ≠ kInfDelay →
        s.max_pull_delay ≤ (FuturePool.pendingCount s.pull_pool : Int) →
        pullBlocks s = true ∧ containerStep self group s ContainerEvent.pull = s)
    ∧ (∀ s : ContainerState,
        (FuturePool.pendingCount s.pull_pool : Int) < s.max_pull_delay →
        pullBlocks s = false)
    ∧ (∀ s : ContainerState, s.max_pull_delay = kInfDelay → pullBlocks s = false) := by
  obtain ⟨h1, h2⟩ := runContainer_preserves_window self group events s0 hpush0 hpull0
  refine ⟨h1, h2, ?_, ?_, ?_, ?_, ?_, ?_⟩
  · intro s hfin hle
    have hb : pushBlocks s = true := by simp [pushBlocks, hfin, hle]
    exact ⟨hb, by simp [containerStep, hb]⟩
  · intro s hlt
    have hn : ¬ s.max_push_delay ≤ (FuturePool.pendingCount s.push_pool : Int) :=
      not_le.mpr hlt
    simp [pushBlocks, hn]
  · intro s hinf
    simp [pushBlocks, hinf]
  · intro s hfin hle
    have hb : pullBlocks s = true := by simp [pullBlocks, hfin, hle]
    exact ⟨hb, by simp [containerStep, hb]⟩
  · intro s hlt
    have hn : ¬ s.max_pull_delay ≤ (FuturePool.pendingCount s.pull_pool : Int) :=
      not_le.mpr hlt
    simp [pullBlocks, hn]
  · intro s hinf
    simp [pullBlocks, hinf]

/-- Witness for C2 at a concrete run: budget 1, two Push attempts; the second
blocks, so at most one epoch is ever outstanding. -/
theorem C2_bounded_staleness_backpressure_witness :
    (FuturePool.pendingCount
        (runContainer 0 [7] sampleState
          [ContainerEvent.push, ContainerEvent.push]).push_pool : Int)
      ≤ (runContainer 0 [7] sampleState
          [ContainerEvent.push, ContainerEvent.push]).max_push_delay :=
  (C2_bounded_staleness_backpressure 0 [7] sampleState
    [ContainerEvent.push, ContainerEvent.push] (by decide) (by decide)).1 (by decide)

/-- A container state with push budget 1 and exactly one outstanding
unacknowledged push epoch. -/
def c2State : ContainerState :=
  { cur_time := 1, aggregator := [], mails_received := [],
    max_push_delay := 1, max_pull_delay := 1,
    push_pool := [((1 : Int), none)], pull_pool := [], pull_aggregator := [] }

/-- Counterexample to C2 as stated: with budget N = 1 and exactly one — hence
at most N — outstanding unacknowledged push epoch, a further Push blocks (the
consistency window stops it and the state does not change), refuting the
claim's conjunct that a Push issued with at most N outstanding prior pushes
never blocks.  The boundary is: fewer than N outstanding never blocks, N or
more blocks — otherwise the claim's own first conjunct (exactly N outstanding
blocks) and its invariant (never more than N outstanding) would be violated. -/
theorem C2_counterexample :
    (FuturePool.pendingCount c2State.push_pool : Int) ≤ c2State.max_push_delay
    ∧ pushBlocks c2State = true
    ∧ containerStep 0 [] c2State ContainerEvent.push = c2State := by decide
